import Mathlib

/-!
Verification of the manga-proxy server core (server.js): chapter-token
normalization, chapter matching, chapter-list post-processing, reader-page
extraction cleanup, CDN page-count discovery, and the reader resolution
cascade. Each definition is a shallow embedding of the corresponding
JavaScript function; async remote calls are modelled by passing the prober
and extractor results as explicit function arguments.
-/

namespace Towerapi

/-! ## String-library models

Models of the JavaScript string primitives used by server.js. Strings are
handled through their character lists so that everything reduces in the
kernel. -/

/-- Models JavaScript `String.prototype.startsWith`. -/
def jsStartsWith (s p : String) : Bool := p.data.isPrefixOf s.data

/-- Models JavaScript `String.prototype.includes`. -/
def jsIncludes (s sub : String) : Bool := decide (sub.data <:+: s.data)

/-- Models JavaScript `String.prototype.trim` (strip whitespace at both ends). -/
def jsTrim (s : String) : String :=
  ⟨((s.data.dropWhile Char.isWhitespace).reverse.dropWhile Char.isWhitespace).reverse⟩

/-! ## Chapter-token normalization (server.js `normalizeChapterParam`) -/

/-- The character fold of `String(ch).replace(/[_\x2d]/g, '.')`:
underscores and hyphens become dots. -/
def foldSepChar (c : Char) : Char := if c = '_' ∨ c = '-' then '.' else c

/-- The `.`-separated form of a chapter token: every `_` and `-` folded to `.`. -/
def dottedToken (t : String) : String := ⟨t.data.map foldSepChar⟩

/-- Models `normalizeChapterParam` (server.js lines 32-35) on a non-null
argument: `String(ch).replace(/[_\x2d]/g, '.').trim()`. -/
def normalizeChapterToken (t : String) : String := jsTrim (dottedToken t)

/-- Models `normalizeChapterParam` including its null/empty-string guard
(`if (!ch) return null`). -/
def normalizeChapterParam (t : String) : Option String :=
  if t = "" then none else some (normalizeChapterToken t)

/-! ## Numeric parsing (model of JavaScript `Number(...)` on chapter tokens)

Chapter numbers originate from decimal strings matched by
`/[0-9]+(?:\.[0-9]+)?/`, so they are exact decimals; we model them as
rationals. -/

/-- Numeric value of a digit list, most significant first. -/
def digitsVal (l : List Char) : Nat := l.foldl (fun a c => a * 10 + (c.toNat - 48)) 0

/-- Parse an unsigned decimal literal (`"12"`, `"12.5"`, `"12."`, `".5"`);
`none` models `NaN`. -/
def parseUnsignedDec (l : List Char) : Option ℚ :=
  let ip := l.takeWhile Char.isDigit
  let rest := l.dropWhile Char.isDigit
  match rest with
  | [] => if ip.isEmpty then none else some (digitsVal ip)
  | '.' :: fp =>
    if fp.all Char.isDigit ∧ ¬(ip.isEmpty ∧ fp.isEmpty) then
      some ((digitsVal ip : ℚ) + (digitsVal fp : ℚ) / (10 ^ fp.length))
    else none
  | _ => none

/-- Models JavaScript `Number(s)` on the token formats relevant here:
the empty string converts to `0`, signed decimal literals to their value,
and anything else (for this corpus) to `NaN`, encoded as `none`. -/
def jsNumber (s : String) : Option ℚ :=
  if s = "" then some 0
  else
    match s.data with
    | '-' :: rest => (parseUnsignedDec rest).map (fun q => -q)
    | '+' :: rest => parseUnsignedDec rest
    | l => parseUnsignedDec l

/-! ## Chapter records and chapter matching (server.js lines 626-636) -/

/-- A chapter record as built by `extractMangaDetail`: string id, parsed
numeric value (or null), display title, absolute link. -/
structure Chapter where
  chapterId : String
  chapterNum : Option ℚ
  title : String
  link : String
deriving DecidableEq, Repr

/-- The float tolerance `1e-6` used for numeric chapter matching. -/
def matchEps : ℚ := 1 / 1000000

/-- Rule 1: `String(c.chapterId) === chapterParam`. -/
def matchesId (tok : String) (c : Chapter) : Bool := c.chapterId == tok

/-- Rule 2: `typeof c.chapterNum === 'number' && Math.abs(c.chapterNum - n) < 1e-6`. -/
def matchesNum (n : ℚ) (c : Chapter) : Bool :=
  match c.chapterNum with
  | some m => decide (|m - n| < matchEps)
  | none => false

/-- Rule 3: `c.title && c.title.includes(chapterParam)`. -/
def matchesTitle (tok : String) (c : Chapter) : Bool :=
  c.title != "" && jsIncludes c.title tok

/-- The chapter-matching cascade of `handleReaderQuery` (server.js lines
629-635): exact id equality first; then, when the token converts to a
number, epsilon-equality on `chapterNum`; finally substring containment in
the title. -/
def findChapter (cs : List Chapter) (tok : String) : Option Chapter :=
  match cs.find? (matchesId tok) with
  | some c => some c
  | none =>
    match (match jsNumber tok with
           | some n => cs.find? (matchesNum n)
           | none => none) with
    | some c => some c
    | none => cs.find? (matchesTitle tok)

/-- The matched chapter computed by `handleReaderQuery` for a raw chapter
token: match against the list after normalization. -/
def resolveMatchedChapter (cs : List Chapter) (rawTok : String) : Option Chapter :=
  findChapter cs (normalizeChapterToken rawTok)

/-! ## Chapter-list post-processing (server.js lines 275-283)

`extractMangaDetail` deduplicates the scraped chapters by link through a
plain object (`uniq[c.link] = c`: first-insertion key order, last-assigned
value — URL keys are not array indices, so insertion order applies) and
then sorts with the descending comparator. -/

/-- Assignment `uniq[k] = v` on an object modelled as an association list:
overwrite in place if the key exists, else append. -/
def upsert (m : List (String × Chapter)) (k : String) (v : Chapter) :
    List (String × Chapter) :=
  match m with
  | [] => [(k, v)]
  | (k', v') :: rest => if k' = k then (k, v) :: rest else (k', v') :: upsert rest k v

/-- The dedup pass `chapters.forEach(c => { if (c.link) uniq[c.link] = c; })`
followed by `Object.values(uniq)`. -/
def dedupByLink (cs : List Chapter) : List Chapter :=
  (cs.foldl (fun m c => if c.link = "" then m else upsert m c.link c) []).map Prod.snd

/-- Numeric sort key: `typeof chapterNum === 'number' ? chapterNum : -Infinity`. -/
def numKey (c : Chapter) : WithBot ℚ :=
  match c.chapterNum with
  | some q => (q : WithBot ℚ)
  | none => ⊥

/-- The sort comparator of lines 277-283, read as "`a` is ordered strictly
before `b`": a negative comparator value. When the numeric keys differ the
comparator returns `bn - an`; on ties it compares `chapterId` descending,
provided both ids are truthy. -/
def strictBefore (a b : Chapter) : Bool :=
  if numKey a ≠ numKey b then decide (numKey b < numKey a)
  else if a.chapterId ≠ "" ∧ b.chapterId ≠ "" then decide (b.chapterId < a.chapterId)
  else false

/-- Insert into a list sorted by `strictBefore`, placing the new element
after any element it does not strictly precede (a stable comparator sort). -/
def insertSorted (x : Chapter) : List Chapter → List Chapter
  | [] => [x]
  | y :: ys => if strictBefore x y then x :: y :: ys else y :: insertSorted x ys

/-- The `.sort(comparator)` call, modelled as a stable insertion sort over
the comparator order. -/
def sortChapters (cs : List Chapter) : List Chapter :=
  cs.foldl (fun acc c => insertSorted c acc) []

/-- Lines 275-283 of `extractMangaDetail`: dedup by link (last-seen wins),
then sort descending by numeric value with descending id tie-break. -/
def processChapters (cs : List Chapter) : List Chapter :=
  sortChapters (dedupByLink cs)

/-- The documented order on the processed list: numeric key strictly
descending, equal keys broken by descending `chapterId`. -/
def chapterLE (a b : Chapter) : Prop :=
  numKey b < numKey a ∨ (numKey a = numKey b ∧ b.chapterId ≤ a.chapterId)

/-! ## Page-count discovery (server.js lines 361-390)

The existence prober `existsUrl` never throws, so it is modelled as a total
boolean function on URLs; `discoverPageCountByHead` probes the URLs built
by `buildFallbackPageUrl`, which is injective in the page number, so the
engine is parameterized directly by a prober on page numbers. -/

/-- The hard safety cap `MAX_PAGE_CHECK`. -/
def MAX_PAGE_CHECK : Nat := 2000

/-- The exponential doubling loop: while `high` is under the cap and page
`high` exists, slide `low` up to `high` and double `high`, clamping at the
cap. The positivity argument records that the loop is only reached with
`high ≥ 1` (it starts at 1 and doubles), which bounds the iteration count. -/
def doublePhase (ex : Nat → Bool) (low high : Nat) (hh : 0 < high) : Nat × Nat :=
  if hlt : high < MAX_PAGE_CHECK then
    if ex high then
      if high * 2 > MAX_PAGE_CHECK then (high, MAX_PAGE_CHECK)
      else doublePhase ex high (high * 2) (by omega)
    else (low, high)
  else (low, high)
termination_by MAX_PAGE_CHECK - high
decreasing_by simp_wf; omega

/-- The binary-search loop: narrow the open interval `(left, right)` by
probing the midpoint until the endpoints are adjacent, then return `left`. -/
def binSearchPhase (ex : Nat → Bool) (left right : Nat) : Nat :=
  if h : left + 1 < right then
    if ex ((left + right) / 2) then binSearchPhase ex ((left + right) / 2) right
    else binSearchPhase ex left ((left + right) / 2)
  else left
termination_by right - left
decreasing_by
  all_goals simp_wf
  all_goals omega

/-- `discoverPageCountByHead`: null when page 1 does not exist; otherwise
double out of the existing range (clamped at the cap), return `high` if it
still exists (cap saturation), else binary-search the open interval. -/
def discoverPageCountByHead (ex : Nat → Bool) : Option Nat :=
  if !(ex 1) then none
  else
    let lh := doublePhase ex 1 1 Nat.one_pos
    if ex lh.2 then some lh.2
    else some (binSearchPhase ex lh.1 lh.2)

/-! ## Reader-page extraction (server.js lines 292-359)

The cheerio DOM queries are library calls; each extraction strategy is
modelled by the list of URL strings it pushes into `imgs` (per-element
attribute cascades and per-strategy base-URL resolution included). The
pipeline from the collected `imgs` array onward — the generic-`<img>`
gate and the final resolve/dedup cleanup — is embedded exactly. -/

def SITE_BASE : String := "https://manhwa-tower.ir"

/-- Model of `new URL(s, SITE_BASE).href` for the path-relative inputs the
cleanup step feeds it: resolve against the site origin. -/
def urlHref (s : String) : String :=
  SITE_BASE ++ (if jsStartsWith s "/" then s else "/" ++ s)

/-- The per-URL cleanup of line 354-355: trim, keep strings that already
start with `http`, resolve the rest against the site base. -/
def resolveFull (u : String) : String :=
  let s := jsTrim u
  if jsStartsWith s "http" then s else urlHref s

/-- `Array.from(new Set(l))`: deduplicate keeping the first occurrence of
each element, in order. `seen` is the set built so far. -/
def dedupFirstAux (seen : List String) : List String → List String
  | [] => []
  | x :: xs => if x ∈ seen then dedupFirstAux seen xs else x :: dedupFirstAux (x :: seen) xs

/-- `Array.from(new Set(l))` with an initially empty set. -/
def dedupFirst (l : List String) : List String := dedupFirstAux [] l

/-- Lines 352-358: map every collected entry through the cleanup (dropping
falsy entries, i.e. empty strings), then dedupe preserving first-occurrence
order. -/
def cleanedPages (imgs : List String) : List String :=
  dedupFirst (imgs.filterMap (fun u => if u = "" then none else some (resolveFull u)))

/-- One fetched reader page, described by the URL lists each extraction
strategy collects: the direct reader-image/container selectors (lines
298-305), noscript blocks (308-315), the first iframe (318-329, empty when
absent or failed), script-embedded JSON arrays (333-340), bare script URL
matches (341-342), and the gated generic `<img>` fallback (345-350). -/
structure ReaderPage where
  directSrcs : List String
  noscriptSrcs : List String
  iframeSrcs : List String
  scriptArraySrcs : List String
  scriptUrlSrcs : List String
  genericSrcs : List String
deriving DecidableEq, Repr

/-- The `imgs` array after the always-run strategies (direct selectors,
noscript, iframe, script sniffing), in push order. -/
def strategyImgs (p : ReaderPage) : List String :=
  p.directSrcs ++ p.noscriptSrcs ++ p.iframeSrcs ++ p.scriptArraySrcs ++ p.scriptUrlSrcs

/-- The `imgs` array after the `if (!imgs.length)` generic-`<img>` fallback
(lines 345-350). -/
def collectedImgs (p : ReaderPage) : List String :=
  if (strategyImgs p).isEmpty then p.genericSrcs else strategyImgs p

/-- The collected sequence after per-URL cleanup, before deduplication. -/
def resolvedImgs (p : ReaderPage) : List String :=
  (collectedImgs p).filterMap (fun u => if u = "" then none else some (resolveFull u))

/-- `extractReaderPages` (server.js lines 292-359), as a function of the
strategies' collected URLs. -/
def extractReaderPages (p : ReaderPage) : List String :=
  cleanedPages (collectedImgs p)

/-! ## Fallback CDN URL construction (server.js lines 362-365) -/

def CDN_SAMPLE_HOST : String := "cdn.megaman-server.ir"

/-- Maximal runs of characters satisfying `p`, as matched by a global
regex over a character class. -/
def charRuns (p : Char → Bool) : List Char → List (List Char)
  | [] => []
  | c :: rest =>
    let rs := charRuns p rest
    if p c then
      match rest, rs with
      | d :: _, r :: rs2 => if p d then (c :: r) :: rs2 else [c] :: (r :: rs2)
      | _, _ => [c] :: rs
    else rs

/-- `String(mangaName).replace(/\s+/g, '_')`: collapse each whitespace run
to a single underscore. -/
def collapseWs : List Char → List Char
  | [] => []
  | c :: rest =>
    let tail := collapseWs rest
    if c.isWhitespace then
      match rest with
      | d :: _ => if d.isWhitespace then tail else '_' :: tail
      | [] => ['_']
    else c :: tail

/-- Characters `encodeURIComponent` leaves unescaped. -/
def uriUnreserved (c : Char) : Bool :=
  c.isAlphanum || c = '-' || c = '_' || c = '.' || c = '!' || c = '~' ||
    c = '*' || c = '\'' || c = '(' || c = ')'

/-- UTF-8 bytes of a character, as numbers. -/
def utf8Bytes (c : Char) : List Nat :=
  let n := c.toNat
  if n < 128 then [n]
  else if n < 2048 then [192 + n / 64, 128 + n % 64]
  else if n < 65536 then [224 + n / 4096, 128 + (n / 64) % 64, 128 + n % 64]
  else [240 + n / 262144, 128 + (n / 4096) % 64, 128 + (n / 64) % 64, 128 + n % 64]

/-- Upper-case hex digit. -/
def hexDigit (n : Nat) : Char :=
  if n < 10 then Char.ofNat (48 + n) else Char.ofNat (55 + n)

/-- Model of JavaScript `encodeURIComponent`: percent-encode every
character outside the unreserved set, byte by byte. -/
def encodeURIComponent (s : String) : String :=
  ⟨s.data.flatMap (fun c =>
    if uriUnreserved c then [c]
    else (utf8Bytes c).flatMap (fun b => ['%', hexDigit (b / 16), hexDigit (b % 16)]))⟩

/-- `buildFallbackPageUrl` (server.js lines 362-365): the CDN URL template
`https://{host}/users/{uid}/{safe}/{chapter}/HD/{page}.webp` where `safe`
is the manga name with whitespace runs replaced by `_`, URI-encoded. -/
def buildFallbackPageUrl (uid mangaName chapter : String) (page : Nat) : String :=
  let safe := encodeURIComponent ⟨collapseWs mangaName.data⟩
  "https://" ++ CDN_SAMPLE_HOST ++ "/users/" ++ uid ++ "/" ++ safe ++ "/" ++
    chapter ++ "/HD/" ++ toString page ++ ".webp"

/-! ## Slug sanitization (server.js lines 22-26) -/

/-- The slug character class `[A-Za-z0-9\x2d_]`. -/
def isSlugChar (c : Char) : Bool := c.isAlphanum || c = '-' || c = '_'

/-- `sanitizeSlug`: collect the maximal `[A-Za-z0-9\x2d_]+` runs (the global
regex match) and join them with `-`; `null` when there is no match. -/
def sanitizeSlug (slug : String) : Option String :=
  match charRuns isSlugChar slug.data with
  | [] => none
  | rs => some ⟨(rs.intersperse ['-']).flatten⟩

/-! ## The reader resolution cascade (server.js lines 615-664)

`handleReaderQuery` is embedded as a pure function of the request inputs
and of the remote interactions it performs: the manga detail produced by
`extractMangaDetail` for the slug, the reader-page extraction result per
chapter link, and the URL existence prober. -/

/-- Manga detail fields consumed by the resolver. -/
structure MangaDetail where
  title : String
  internalId : Option String
  chapters : List Chapter
deriving DecidableEq, Repr

/-- The remote world a resolution interacts with. -/
structure ResolveEnv where
  detail : String → MangaDetail
  readerPages : String → List String
  probe : String → Bool

/-- The `method` field of a successful reader result. -/
inductive ReaderMethod where
  | explicit
  | fallbackDiscovered
  | fallbackGuess
deriving DecidableEq, Repr

/-- A successful reader resolution payload. -/
structure ReaderResult where
  method : ReaderMethod
  pages : List String
  pageCount : Option Nat
  matchedChapter : Option Chapter
deriving DecidableEq, Repr

/-- The HTTP outcomes of `handleReaderQuery`: 200 with a result, 400 for
missing inputs, 422 when every strategy is exhausted. -/
inductive ReaderResponse where
  | ok (result : ReaderResult)
  | badRequest (error : String)
  | unprocessable (error : String)
deriving DecidableEq, Repr

/-- The 422 message of line 659. -/
def resolutionErrorMsg : String :=
  "Could not extract pages. Ensure slug correct or site uses JS-heavy reader."

/-- The fallback cascade of lines 643-659: with a truthy `internalId`,
discover the page count over the CDN pattern and return the reconstructed
list (`fallback-discovered`), or a fixed 25-page guess (`fallback-guess`);
without an `internalId`, fail with the 422 resolution error. -/
def fallbackResolve (env : ResolveEnv) (manga : MangaDetail)
    (slug chapterParam : String) (matched : Option Chapter) : ReaderResponse :=
  match manga.internalId with
  | some uid =>
    if uid = "" then .unprocessable resolutionErrorMsg
    else
      let mangaName := if manga.title = "" then slug else manga.title
      match discoverPageCountByHead
          (fun p => env.probe (buildFallbackPageUrl uid mangaName chapterParam p)) with
      | some n =>
        if 0 < n then
          .ok ⟨.fallbackDiscovered,
               (List.range n).map (fun i => buildFallbackPageUrl uid mangaName chapterParam (i + 1)),
               some n, matched⟩
        else
          .ok ⟨.fallbackGuess,
               (List.range 25).map (fun i => buildFallbackPageUrl uid mangaName chapterParam (i + 1)),
               none, matched⟩
      | none =>
        .ok ⟨.fallbackGuess,
             (List.range 25).map (fun i => buildFallbackPageUrl uid mangaName chapterParam (i + 1)),
             none, matched⟩
  | none => .unprocessable resolutionErrorMsg

/-- `handleReaderQuery` (server.js lines 615-664): validate inputs,
sanitize the slug, normalize the chapter token, fetch the detail, match a
chapter, attempt explicit extraction on the matched link, and otherwise
run the fallback cascade. -/
def handleReaderQuery (env : ResolveEnv) (rawSlug rawChapter : String) : ReaderResponse :=
  if rawSlug = "" ∨ rawChapter = "" then .badRequest "slug and chapter required"
  else
    let slug := (sanitizeSlug rawSlug).getD rawSlug
    let chapterParam := normalizeChapterToken rawChapter
    let manga := env.detail slug
    let matched := findChapter manga.chapters chapterParam
    match matched with
    | some c =>
      if c.link = "" then fallbackResolve env manga slug chapterParam matched
      else
        let pages := env.readerPages c.link
        if pages.isEmpty then fallbackResolve env manga slug chapterParam matched
        else .ok ⟨.explicit, pages, some pages.length, matched⟩
    | none => fallbackResolve env manga slug chapterParam matched

/-! ## Concrete fixtures used by witnesses -/

/-- A chapter list where rule 1 (exact id) and rule 2 (numeric) select
different chapters: the token `"1"` id-matches the second entry while
numerically matching the first. -/
def csRules : List Chapter :=
  [⟨"2", some 1, "Chapter 2", "https://manhwa-tower.ir/r?Chapter=2,t"⟩,
   ⟨"1", some 2, "Chapter 1", "https://manhwa-tower.ir/r?Chapter=1,t"⟩]

/-- A chapter list with a decimal chapter id for the separator-folding
witness. -/
def csSep : List Chapter :=
  [⟨"1.34", some (134 / 100), "Chapter 1.34", "https://manhwa-tower.ir/r?Chapter=1.34,t"⟩]

/-- The spec's sorting example: numeric values `[3, 1, 3, null]` with
distinct links and ids. -/
def csSort : List Chapter :=
  [⟨"3", some 3, "Chapter 3", "https://manhwa-tower.ir/a"⟩,
   ⟨"1", some 1, "Chapter 1", "https://manhwa-tower.ir/b"⟩,
   ⟨"3x", some 3, "Chapter 3x", "https://manhwa-tower.ir/c"⟩,
   ⟨"extra", none, "Extra", "https://manhwa-tower.ir/d"⟩]

/-- A reader page whose direct selectors find `a.jpg`, `b.jpg`, `c.jpg`
with a duplicate of `a.jpg` appended by the script sniffer. -/
def pageDedup : ReaderPage :=
  ⟨["https://cdn.x/a.jpg", "https://cdn.x/b.jpg", "https://cdn.x/c.jpg"],
   [], [], [], ["https://cdn.x/a.jpg"], []⟩

/-- A reader page where the direct selectors already yield a URL and a
noscript block yields another one. -/
def pageCascade : ReaderPage :=
  ⟨["https://cdn.x/a.jpg"], ["https://cdn.x/b.jpg"], [], [], [],
   ["https://cdn.x/z.jpg"]⟩

/-- A reader page for the gating witness: non-empty early strategies plus
a generic `<img>` harvest that must not contribute. -/
def pageGating : ReaderPage :=
  ⟨["https://cdn.x/p1.jpg"], [], [], [], [], ["https://cdn.x/junk.jpg"]⟩

/-- An environment whose manga lists one chapter whose reader page yields
a single image: explicit resolution succeeds. -/
def envExplicit : ResolveEnv :=
  ⟨fun _ => ⟨"Demo", none, [⟨"5", some 5, "Chapter 5", "https://manhwa-tower.ir/r?Chapter=5,t"⟩]⟩,
   fun _ => ["https://cdn.x/1.webp"],
   fun _ => false⟩

/-- An environment with an empty chapter list and no internal id: every
resolution strategy is unavailable. -/
def envNoInternal : ResolveEnv :=
  ⟨fun _ => ⟨"Demo", none, []⟩, fun _ => [], fun _ => false⟩

/-! ## Helper lemmas: page-count discovery -/

theorem doublePhase_range (ex : Nat → Bool) (low high : Nat) (hh : 0 < high) :
    1 ≤ low → high ≤ MAX_PAGE_CHECK →
    1 ≤ (doublePhase ex low high hh).1 ∧ 1 ≤ (doublePhase ex low high hh).2 ∧
      (doublePhase ex low high hh).2 ≤ MAX_PAGE_CHECK := by
  induction low, high, hh using doublePhase.induct ex with
  | case1 low high hh hlt hex hcap =>
    intro h1 h2
    rw [doublePhase]
    simp only [hlt, hex, hcap, dif_pos, if_pos, if_true]
    refine ⟨by omega, by simp [MAX_PAGE_CHECK], le_refl _⟩
  | case2 low high hh hlt hex hcap ih =>
    intro h1 h2
    rw [doublePhase]
    simp only [hlt, hex, hcap, dif_pos, if_pos, if_neg, if_false]
    exact ih (by omega) (by omega)
  | case3 low high hh hlt hex =>
    intro h1 h2
    rw [doublePhase]
    simp only [hlt, dif_pos]
    rw [if_neg (by simpa using hex)]
    exact ⟨h1, hh, h2⟩
  | case4 low high hh hlt =>
    intro h1 h2
    rw [doublePhase]
    rw [dif_neg hlt]
    exact ⟨h1, hh, h2⟩

theorem doublePhase_mono (ex : Nat → Bool) (N : Nat)
    (hex : ∀ p, 1 ≤ p → (ex p = true ↔ p ≤ N)) (hN : N < MAX_PAGE_CHECK) :
    ∀ low high (hh : 0 < high), 1 ≤ low → low ≤ N → high ≤ MAX_PAGE_CHECK →
    (doublePhase ex low high hh).1 ≤ N ∧ N < (doublePhase ex low high hh).2 := by
  intro low high hh
  induction low, high, hh using doublePhase.induct ex with
  | case1 low high hh hlt hx hcap =>
    intro h1 h2 h3
    rw [doublePhase]
    simp only [hlt, hx, hcap, dif_pos, if_pos, if_true]
    exact ⟨(hex high hh).mp hx, hN⟩
  | case2 low high hh hlt hx hcap ih =>
    intro h1 h2 h3
    rw [doublePhase]
    simp only [hlt, hx, hcap, dif_pos, if_pos, if_neg, if_false]
    exact ih hh ((hex high hh).mp hx) (by omega)
  | case3 low high hh hlt hx =>
    intro h1 h2 h3
    rw [doublePhase]
    simp only [hlt, dif_pos]
    rw [if_neg (by simpa using hx)]
    have : ¬ high ≤ N := fun hle => hx ((hex high hh).mpr hle)
    exact ⟨h2, by omega⟩
  | case4 low high hh hlt =>
    intro h1 h2 h3
    rw [doublePhase]
    rw [dif_neg hlt]
    exact ⟨h2, by omega⟩

theorem binSearchPhase_mono (ex : Nat → Bool) (N : Nat)
    (hex : ∀ p, 1 ≤ p → (ex p = true ↔ p ≤ N)) :
    ∀ left right, 1 ≤ left → left ≤ N → N < right → binSearchPhase ex left right = N := by
  intro left right
  induction left, right using binSearchPhase.induct ex with
  | case1 left right h hx ih =>
    intro h1 h2 h3
    rw [binSearchPhase]
    simp only [h, hx, dif_pos, if_pos, if_true]
    exact ih (by omega) ((hex _ (by omega)).mp hx) h3
  | case2 left right h hx ih =>
    intro h1 h2 h3
    rw [binSearchPhase]
    simp only [h, dif_pos]
    rw [if_neg (by simpa using hx)]
    have hmid : ¬ (left + right) / 2 ≤ N := fun hle => hx ((hex _ (by omega)).mpr hle)
    exact ih h1 h2 (by omega)
  | case3 left right h =>
    intro h1 h2 h3
    rw [binSearchPhase]
    rw [dif_neg h]
    omega

theorem doublePhase_congr (ex ex2 : Nat → Bool)
    (hagree : ∀ p, 1 ≤ p → p ≤ MAX_PAGE_CHECK → ex p = ex2 p) :
    ∀ low high (hh : 0 < high), high ≤ MAX_PAGE_CHECK →
    doublePhase ex low high hh = doublePhase ex2 low high hh := by
  intro low high hh
  induction low, high, hh using doublePhase.induct ex with
  | case1 low high hh hlt hx hcap =>
    intro hle
    rw [doublePhase]
    conv_rhs => rw [doublePhase]
    rw [← hagree high hh hle]
    simp only [hlt, hx, hcap, dif_pos, if_pos, if_true]
  | case2 low high hh hlt hx hcap ih =>
    intro hle
    rw [doublePhase]
    conv_rhs => rw [doublePhase]
    rw [← hagree high hh hle]
    simp only [hlt, hx, hcap, dif_pos, if_pos, if_neg, if_false]
    exact ih (by omega)
  | case3 low high hh hlt hx =>
    intro hle
    rw [doublePhase]
    conv_rhs => rw [doublePhase]
    rw [← hagree high hh hle]
    simp only [hlt, dif_pos]
    rw [if_neg (by simpa using hx), if_neg (by simpa using hx)]
  | case4 low high hh hlt =>
    intro hle
    rw [doublePhase]
    conv_rhs => rw [doublePhase]
    rw [dif_neg hlt, dif_neg hlt]

theorem binSearchPhase_congr (ex ex2 : Nat → Bool)
    (hagree : ∀ p, 1 ≤ p → p ≤ MAX_PAGE_CHECK → ex p = ex2 p) :
    ∀ left right, 1 ≤ left → right ≤ MAX_PAGE_CHECK →
    binSearchPhase ex left right = binSearchPhase ex2 left right := by
  intro left right
  induction left, right using binSearchPhase.induct ex with
  | case1 left right h hx ih =>
    intro h1 h2
    rw [binSearchPhase]
    conv_rhs => rw [binSearchPhase]
    rw [← hagree ((left + right) / 2) (by omega) (by omega)]
    simp only [h, hx, dif_pos, if_pos, if_true]
    exact ih (by omega) h2
  | case2 left right h hx ih =>
    intro h1 h2
    rw [binSearchPhase]
    conv_rhs => rw [binSearchPhase]
    rw [← hagree ((left + right) / 2) (by omega) (by omega)]
    simp only [h, dif_pos]
    rw [if_neg (by simpa using hx), if_neg (by simpa using hx)]
    exact ih h1 (by omega)
  | case3 left right h =>
    intro h1 h2
    rw [binSearchPhase]
    conv_rhs => rw [binSearchPhase]
    rw [dif_neg h, dif_neg h]

/-! ## C1 -/

/-- C1: for every existence prober that is perfectly monotonic with exact
boundary `N` (pages `1..N` exist, pages above `N` do not) and
`1 ≤ N < 2000`, `discoverPageCountByHead` returns exactly `N`: the
doubling phase brackets `N` between an existing `low` and a non-existing
`high`, and the binary search narrows the open interval to adjacency. -/
theorem discoverPageCount_exact_on_monotonic (ex : Nat → Bool) (N : Nat)
    (hex : ∀ p, 1 ≤ p → (ex p = true ↔ p ≤ N)) (h1 : 1 ≤ N) (h2 : N < 2000) :
    discoverPageCountByHead ex = some N := by
  have h2' : N < MAX_PAGE_CHECK := by simpa [MAX_PAGE_CHECK] using h2
  have hx1 : ex 1 = true := (hex 1 le_rfl).mpr h1
  have hrange := doublePhase_range ex 1 1 Nat.one_pos le_rfl (by simp [MAX_PAGE_CHECK])
  have hmono := doublePhase_mono ex N hex h2' 1 1 Nat.one_pos le_rfl h1 (by simp [MAX_PAGE_CHECK])
  set lh := doublePhase ex 1 1 Nat.one_pos with hlh
  have hxh : ex lh.2 = false := by
    have : ¬ lh.2 ≤ N := by omega
    cases hxx : ex lh.2 with
    | false => rfl
    | true => exact absurd ((hex lh.2 (by omega)).mp hxx) this
  rw [discoverPageCountByHead]
  simp only [hx1, Bool.not_true, if_false, Bool.false_eq_true]
  rw [← hlh, hxh]
  simp only [Bool.false_eq_true, if_false]
  exact congrArg some (binSearchPhase_mono ex N hex lh.1 lh.2 (by omega) (by omega) (by omega))

/-- Witness for C1: the spec's synthetic prober where pages `1..37` exist
and `38+` do not yields exactly `37`. -/
theorem discoverPageCount_exact_on_monotonic_witness :
    (∀ p, 1 ≤ p → ((fun q => decide (q ≤ 37)) p = true ↔ p ≤ 37)) ∧
      discoverPageCountByHead (fun q => decide (q ≤ 37)) = some 37 :=
  ⟨fun p _ => by simp,
   discoverPageCount_exact_on_monotonic (fun q => decide (q ≤ 37)) 37
     (fun p _ => by simp) (by omega) (by omega)⟩

/-! ## C2 -/

/-- C2: for every prober, if page 1 does not exist then
`discoverPageCountByHead` returns null (not an error), regardless of any
other page's existence. -/
theorem discoverPageCount_null_when_page1_missing (ex : Nat → Bool)
    (h : ex 1 = false) : discoverPageCountByHead ex = none := by
  rw [discoverPageCountByHead, h]
  rfl

/-- Witness for C2: a prober under which only pages 2 and above exist
still yields null. -/
theorem discoverPageCount_null_when_page1_missing_witness :
    (fun q => decide (2 ≤ q)) 1 = false ∧
      discoverPageCountByHead (fun q => decide (2 ≤ q)) = none :=
  ⟨by decide, discoverPageCount_null_when_page1_missing _ (by decide)⟩

/-! ## C10 -/

/-- C10: `discoverPageCountByHead` terminates on every prober — the Lean
embedding is total, with the doubling loop measured by the cap minus the
strictly increasing `high` and the binary search by the strictly
decreasing width `right - left` — and every page it ever probes lies in
`1..2000`: two probers that agree on pages `1..2000` produce identical
results, whatever they do elsewhere. -/
theorem discoverPageCount_probe_confinement (ex ex2 : Nat → Bool)
    (hagree : ∀ p, 1 ≤ p → p ≤ 2000 → ex p = ex2 p) :
    discoverPageCountByHead ex = discoverPageCountByHead ex2 := by
  have hagree' : ∀ p, 1 ≤ p → p ≤ MAX_PAGE_CHECK → ex p = ex2 p := by
    simpa [MAX_PAGE_CHECK] using hagree
  have h1 : ex 1 = ex2 1 := hagree' 1 le_rfl (by simp [MAX_PAGE_CHECK])
  have hpair : doublePhase ex 1 1 Nat.one_pos = doublePhase ex2 1 1 Nat.one_pos :=
    doublePhase_congr ex ex2 hagree' 1 1 Nat.one_pos (by simp [MAX_PAGE_CHECK])
  have hrange := doublePhase_range ex 1 1 Nat.one_pos le_rfl (by simp [MAX_PAGE_CHECK])
  rw [discoverPageCountByHead]
  conv_rhs => rw [discoverPageCountByHead]
  rw [← h1, ← hpair]
  cases hx1 : ex 1 with
  | false => rfl
  | true =>
    simp only [Bool.not_true, Bool.false_eq_true, if_false]
    rw [← hagree' (doublePhase ex 1 1 Nat.one_pos).2 (by omega) (by omega)]
    cases hxh : ex (doublePhase ex 1 1 Nat.one_pos).2 with
    | true => rfl
    | false =>
      simp only [Bool.false_eq_true, if_false]
      exact congrArg some
        (binSearchPhase_congr ex ex2 hagree' _ _ (by omega) (by omega))

/-- Witness for C10: a prober that answers true everywhere and one that
answers true only up to the cap agree on `1..2000` and give the same
(saturated) discovery result. -/
theorem discoverPageCount_probe_confinement_witness :
    (∀ p, 1 ≤ p → p ≤ 2000 →
        (fun _ => true) p = (fun q => decide (q ≤ 2000)) p) ∧
      discoverPageCountByHead (fun _ => true) =
        discoverPageCountByHead (fun q => decide (q ≤ 2000)) :=
  ⟨fun p _ hp => by simp [hp],
   discoverPageCount_probe_confinement _ _ (fun p _ hp => by simp [hp])⟩

/-! ## C3 -/

/-- C3: chapter matching proceeds in a fixed order with first match
winning — exact id equality, then (when the token converts to a number)
numeric epsilon-equality on `chapterNum`, then title substring containment
— and a chapter matched by an earlier rule is always selected over any
chapter only a later rule would match; the result always comes from the
list. -/
theorem findChapter_rule_precedence (cs : List Chapter) (tok : String) :
    (∀ c, findChapter cs tok = some c → c ∈ cs) ∧
    ((cs.find? (matchesId tok)).isSome →
      findChapter cs tok = cs.find? (matchesId tok)) ∧
    (cs.find? (matchesId tok) = none →
      ∀ n, jsNumber tok = some n → (cs.find? (matchesNum n)).isSome →
        findChapter cs tok = cs.find? (matchesNum n)) ∧
    (cs.find? (matchesId tok) = none →
      (∀ n, jsNumber tok = some n → cs.find? (matchesNum n) = none) →
      findChapter cs tok = cs.find? (matchesTitle tok)) := by
  refine ⟨?_, ?_, ?_, ?_⟩
  · intro c hc
    unfold findChapter at hc
    cases h1 : cs.find? (matchesId tok) with
    | some c1 =>
      simp only [h1] at hc
      cases hc
      exact List.mem_of_find?_eq_some h1
    | none =>
      simp only [h1] at hc
      cases h2 : jsNumber tok with
      | some n =>
        simp only [h2] at hc
        cases h3 : cs.find? (matchesNum n) with
        | some c2 =>
          simp only [h3] at hc
          cases hc
          exact List.mem_of_find?_eq_some h3
        | none =>
          simp only [h3] at hc
          exact List.mem_of_find?_eq_some hc
      | none =>
        simp only [h2] at hc
        exact List.mem_of_find?_eq_some hc
  · intro hsome
    unfold findChapter
    cases h1 : cs.find? (matchesId tok) with
    | some c1 => rfl
    | none => rw [h1] at hsome; cases hsome
  · intro h1 n hn hsome
    unfold findChapter
    simp only [h1, hn]
    cases h3 : cs.find? (matchesNum n) with
    | some c2 => simp only [h3]
    | none => rw [h3] at hsome; cases hsome
  · intro h1 hnone
    unfold findChapter
    simp only [h1]
    cases h2 : jsNumber tok with
    | some n => simp only [h2, hnone n h2]
    | none => simp only [h2]

/-- Witness for C3: with `csRules` and token `"1"`, rule 1 applies (it
matches the second chapter by id) and the resolver returns that first
id-match even though rule 2 would match the first chapter numerically. -/
theorem findChapter_rule_precedence_witness :
    (csRules.find? (matchesId "1")).isSome ∧
      findChapter csRules "1" = csRules.find? (matchesId "1") :=
  ⟨by decide, (findChapter_rule_precedence csRules "1").2.1 (by decide)⟩

/-! ## C4 -/

/-- C4: resolution of a chapter token selects the same matched chapter as
its `.`-separated equivalent: normalization folds every `_` and `-` to
`.`, so the matched chapter depends only on the token's dotted form. -/
theorem resolve_separator_invariance (cs : List Chapter) (t : String) :
    resolveMatchedChapter cs t = resolveMatchedChapter cs (dottedToken t) := by
  have hidem : ∀ c, foldSepChar (foldSepChar c) = foldSepChar c := by
    intro c
    by_cases h : c = '_' ∨ c = '-' <;> simp [foldSepChar, h]
  unfold resolveMatchedChapter normalizeChapterToken dottedToken
  congr 2
  rw [List.map_map]
  refine congrArg String.mk (List.map_congr_left fun c _ => ?_)
  simpa [Function.comp] using (hidem c).symm

/-- Witness for C4: `"1_34"`, `"1-34"` and `"1.34"` all resolve to the
same matched chapter of `csSep`. -/
theorem resolve_separator_invariance_witness :
    dottedToken "1_34" = "1.34" ∧ dottedToken "1-34" = "1.34" ∧
      resolveMatchedChapter csSep "1_34" = resolveMatchedChapter csSep "1.34" ∧
      resolveMatchedChapter csSep "1-34" = resolveMatchedChapter csSep "1.34" := by
  refine ⟨by decide, by decide, ?_, ?_⟩
  · have h := resolve_separator_invariance csSep "1_34"
    rwa [show dottedToken "1_34" = "1.34" by decide] at h
  · have h := resolve_separator_invariance csSep "1-34"
    rwa [show dottedToken "1-34" = "1.34" by decide] at h

/-! ## Helper lemmas: first-occurrence deduplication -/

theorem mem_dedupFirstAux (l : List String) :
    ∀ seen x, x ∈ dedupFirstAux seen l ↔ x ∈ l ∧ x ∉ seen := by
  induction l with
  | nil => intro seen x; simp [dedupFirstAux]
  | cons y ys ih =>
    intro seen x
    by_cases hy : y ∈ seen
    · simp only [dedupFirstAux, if_pos hy, ih]
      constructor
      · rintro ⟨hx, hns⟩
        exact ⟨List.mem_cons_of_mem _ hx, hns⟩
      · rintro ⟨hx, hns⟩
        rcases List.mem_cons.mp hx with rfl | hx
        · exact absurd hy hns
        · exact ⟨hx, hns⟩
    · simp only [dedupFirstAux, if_neg hy, List.mem_cons, ih]
      by_cases hxy : x = y
      · subst hxy; tauto
      · tauto

theorem nodup_dedupFirstAux (l : List String) :
    ∀ seen, (dedupFirstAux seen l).Nodup := by
  induction l with
  | nil => intro seen; simp [dedupFirstAux]
  | cons y ys ih =>
    intro seen
    by_cases hy : y ∈ seen
    · simpa [dedupFirstAux, if_pos hy] using ih seen
    · simp only [dedupFirstAux, if_neg hy]
      refine List.nodup_cons.mpr ⟨?_, ih (y :: seen)⟩
      intro hmem
      exact ((mem_dedupFirstAux ys (y :: seen) y).mp hmem).2 (List.mem_cons_self y seen)

theorem sublist_dedupFirstAux (l : List String) :
    ∀ seen, List.Sublist (dedupFirstAux seen l) l := by
  induction l with
  | nil => intro seen; simp [dedupFirstAux]
  | cons y ys ih =>
    intro seen
    by_cases hy : y ∈ seen
    · simpa [dedupFirstAux, if_pos hy] using (ih seen).trans (List.sublist_cons_self y ys)
    · simpa [dedupFirstAux, if_neg hy] using List.Sublist.cons₂ y (ih (y :: seen))

theorem dedupFirstAux_append_dup (l : List String) :
    ∀ seen x, x ∈ l ∨ x ∈ seen →
      dedupFirstAux seen (l ++ [x]) = dedupFirstAux seen l := by
  induction l with
  | nil =>
    intro seen x hx
    rcases hx with h | h
    · cases h
    · simp [dedupFirstAux, h]
  | cons y ys ih =>
    intro seen x hx
    by_cases hy : y ∈ seen
    · simp only [List.cons_append, dedupFirstAux, if_pos hy]
      refine ih seen x ?_
      rcases hx with hmem | hs
      · rcases List.mem_cons.mp hmem with rfl | hmem
        · exact Or.inr hy
        · exact Or.inl hmem
      · exact Or.inr hs
    · simp only [List.cons_append, dedupFirstAux, if_neg hy]
      refine congrArg (y :: ·) (ih (y :: seen) x ?_)
      rcases hx with hmem | hs
      · rcases List.mem_cons.mp hmem with rfl | hmem
        · exact Or.inr (List.mem_cons_self x seen)
        · exact Or.inl hmem
      · exact Or.inr (List.mem_cons_of_mem _ hs)

theorem jsStartsWith_urlHref (s : String) : jsStartsWith (urlHref s) "http" = true := by
  have hpre : "http".data <+: SITE_BASE.data := by decide
  have happ : SITE_BASE.data <+: (urlHref s).data := by
    rw [urlHref, String.data_append]
    exact List.prefix_append _ _
  rw [jsStartsWith]
  exact List.isPrefixOf_iff_prefix.mpr (hpre.trans happ)

theorem jsStartsWith_resolveFull (u : String) :
    jsStartsWith (resolveFull u) "http" = true := by
  rw [resolveFull]
  cases h : jsStartsWith (jsTrim u) "http" with
  | true => simp [h]
  | false => simpa [h] using jsStartsWith_urlHref (jsTrim u)

/-! ## C6 -/

/-- C6: `extractReaderPages` returns a duplicate-free sequence of absolute
URLs whose relative order is the order of first occurrences in the
collected, resolved sequence (a sublist with the same membership), and
appending a duplicate of an already-collected image leaves the output
unchanged. -/
theorem extractReaderPages_dedup_order (p : ReaderPage) :
    (extractReaderPages p).Nodup ∧
    (∀ u ∈ extractReaderPages p, jsStartsWith u "http" = true) ∧
    List.Sublist (extractReaderPages p) (resolvedImgs p) ∧
    (∀ u, u ∈ extractReaderPages p ↔ u ∈ resolvedImgs p) ∧
    (∀ v ∈ strategyImgs p,
      extractReaderPages { p with scriptUrlSrcs := p.scriptUrlSrcs ++ [v] } =
        extractReaderPages p) := by
  have hmem : ∀ u, u ∈ extractReaderPages p ↔ u ∈ resolvedImgs p := by
    intro u
    rw [extractReaderPages, cleanedPages, dedupFirst]
    rw [mem_dedupFirstAux]
    simp [resolvedImgs]
  refine ⟨nodup_dedupFirstAux _ _, ?_, sublist_dedupFirstAux _ _, hmem, ?_⟩
  · intro u hu
    have := (hmem u).mp hu
    rw [resolvedImgs] at this
    rcases List.mem_filterMap.mp this with ⟨w, _, hw⟩
    by_cases hw0 : w = ""
    · rw [if_pos hw0] at hw; cases hw
    · rw [if_neg hw0] at hw
      cases hw
      exact jsStartsWith_resolveFull w
  · intro v hv
    have hI : strategyImgs { p with scriptUrlSrcs := p.scriptUrlSrcs ++ [v] } =
        strategyImgs p ++ [v] := by
      simp [strategyImgs]
    have hne : (strategyImgs p).isEmpty = false :=
      List.isEmpty_eq_false_iff_exists_mem.mpr ⟨v, hv⟩
    have hne2 : (strategyImgs p ++ [v]).isEmpty = false :=
      List.isEmpty_eq_false_iff_exists_mem.mpr ⟨v, by simp⟩
    rw [extractReaderPages, extractReaderPages, collectedImgs, collectedImgs, hI, hne, hne2]
    simp only [Bool.false_eq_true, if_false]
    rw [cleanedPages, cleanedPages, List.filterMap_append, dedupFirst, dedupFirst]
    by_cases hv0 : v = ""
    · simp [hv0]
    · rw [show List.filterMap (fun u => if u = "" then none else some (resolveFull u)) [v] =
          [resolveFull v] by simp [hv0]]
      refine dedupFirstAux_append_dup _ [] (resolveFull v) (Or.inl ?_)
      exact List.mem_filterMap.mpr ⟨v, hv, by rw [if_neg hv0]⟩

/-- Witness for C6: on the spec's fixture (images `a, b, c` with a
duplicate `a` appended) the output is duplicate-free and appending yet
another duplicate of `a.jpg` changes nothing. -/
theorem extractReaderPages_dedup_order_witness :
    (extractReaderPages pageDedup).Nodup ∧
      extractReaderPages
          { pageDedup with scriptUrlSrcs := pageDedup.scriptUrlSrcs ++ ["https://cdn.x/a.jpg"] } =
        extractReaderPages pageDedup :=
  ⟨(extractReaderPages_dedup_order pageDedup).1,
   (extractReaderPages_dedup_order pageDedup).2.2.2.2 "https://cdn.x/a.jpg" (by decide)⟩

/-! ## C7 -/

/-- C7 counterexample: the noscript strategy contributes `b.jpg` to the
result even though the direct-selector strategy already yielded `a.jpg`,
so later strategies are not gated on earlier ones yielding nothing. -/
theorem extractReaderPages_cascade_counterexample :
    pageCascade.directSrcs = ["https://cdn.x/a.jpg"] ∧
    pageCascade.noscriptSrcs = ["https://cdn.x/b.jpg"] ∧
    extractReaderPages pageCascade = ["https://cdn.x/a.jpg", "https://cdn.x/b.jpg"] := by
  refine ⟨rfl, rfl, ?_⟩
  decide

/-- C7 (amended): only the final generic-`<img>` strategy is gated — it
contributes exactly when the direct-selector, noscript, iframe and
script-sniffing strategies together collected nothing; those earlier
strategies always run and their URLs are concatenated in source order. -/
theorem extractReaderPages_generic_gating (p : ReaderPage) :
    (strategyImgs p ≠ [] →
      extractReaderPages p = cleanedPages (strategyImgs p) ∧
      ∀ g, extractReaderPages { p with genericSrcs := g } = extractReaderPages p) ∧
    (strategyImgs p = [] → extractReaderPages p = cleanedPages p.genericSrcs) := by
  constructor
  · intro hne
    have hb : (strategyImgs p).isEmpty = false := by
      cases h : strategyImgs p with
      | nil => exact absurd h hne
      | cons a l => simp
    have hx : extractReaderPages p = cleanedPages (strategyImgs p) := by
      rw [extractReaderPages, collectedImgs, hb]
      simp
    refine ⟨hx, ?_⟩
    intro g
    have hI : strategyImgs { p with genericSrcs := g } = strategyImgs p := rfl
    rw [extractReaderPages, collectedImgs, hI, hb]
    simp only [Bool.false_eq_true, if_false]
    exact hx.symm
  · intro hnil
    rw [extractReaderPages, collectedImgs, hnil]
    simp

/-- Witness for C7 (amended): with `pageGating`, whose direct strategy is
non-empty, the generic `<img>` harvest contributes nothing. -/
theorem extractReaderPages_generic_gating_witness :
    extractReaderPages pageGating = cleanedPages (strategyImgs pageGating) ∧
      extractReaderPages { pageGating with genericSrcs := [] } =
        extractReaderPages pageGating :=
  (fun h => ⟨h.1, h.2 []⟩)
    ((extractReaderPages_generic_gating pageGating).1 (by decide))

/-! ## Helper lemma: the fallback cascade never reports `explicit` -/

theorem fallbackResolve_not_explicit (env : ResolveEnv) (manga : MangaDetail)
    (slug chapterParam : String) (matched : Option Chapter) (r : ReaderResult)
    (h : fallbackResolve env manga slug chapterParam matched = .ok r) :
    r.method ≠ ReaderMethod.explicit := by
  rw [fallbackResolve] at h
  cases hid : manga.internalId with
  | none => rw [hid] at h; cases h
  | some uid =>
    simp only [hid] at h
    by_cases huid : uid = ""
    · rw [if_pos huid] at h; cases h
    · rw [if_neg huid] at h
      cases hpc : discoverPageCountByHead
          (fun p => env.probe (buildFallbackPageUrl uid
            (if manga.title = "" then slug else manga.title) chapterParam p)) with
      | none =>
        simp only [hpc] at h
        cases h
        intro hm; cases hm
      | some n =>
        simp only [hpc] at h
        by_cases hn : 0 < n
        · rw [if_pos hn] at h
          cases h
          intro hm; cases hm
        · rw [if_neg hn] at h
          cases h
          intro hm; cases hm

/-! ## C8 -/

/-- C8: whenever `handleReaderQuery` returns a result whose method is
`explicit`, its page list is non-empty — an empty explicit extraction is
treated as failure and the resolver proceeds to the fallback cascade,
which never reports `explicit`. -/
theorem explicit_method_pages_nonempty (env : ResolveEnv) (rawSlug rawChapter : String)
    (r : ReaderResult) (hok : handleReaderQuery env rawSlug rawChapter = .ok r)
    (hm : r.method = ReaderMethod.explicit) : r.pages ≠ [] := by
  rw [handleReaderQuery] at hok
  by_cases hbad : rawSlug = "" ∨ rawChapter = ""
  · rw [if_pos hbad] at hok; cases hok
  · rw [if_neg hbad] at hok
    set manga := env.detail ((sanitizeSlug rawSlug).getD rawSlug) with hmanga
    set chapterParam := normalizeChapterToken rawChapter with hcp
    cases hfind : findChapter manga.chapters chapterParam with
    | none =>
      simp only [hfind] at hok
      exact absurd hm (fallbackResolve_not_explicit env manga _ _ _ r hok)
    | some c =>
      simp only [hfind] at hok
      by_cases hlink : c.link = ""
      · rw [if_pos hlink] at hok
        exact absurd hm (fallbackResolve_not_explicit env manga _ _ _ r hok)
      · rw [if_neg hlink] at hok
        cases hpages : (env.readerPages c.link).isEmpty with
        | true =>
          rw [hpages] at hok
          simp only [if_true] at hok
          exact absurd hm (fallbackResolve_not_explicit env manga _ _ _ r hok)
        | false =>
          rw [hpages] at hok
          simp only [Bool.false_eq_true, if_false] at hok
          cases hok
          simpa [List.isEmpty_iff] using hpages

/-- Witness for C8: in `envExplicit` the chapter `"5"` resolves
explicitly, and the theorem yields that its page list is non-empty. -/
theorem explicit_method_pages_nonempty_witness :
    handleReaderQuery envExplicit "demo" "5" =
      ReaderResponse.ok
        ⟨ReaderMethod.explicit, ["https://cdn.x/1.webp"], some 1,
         some ⟨"5", some 5, "Chapter 5", "https://manhwa-tower.ir/r?Chapter=5,t"⟩⟩ ∧
    (⟨ReaderMethod.explicit, ["https://cdn.x/1.webp"], some 1,
      some ⟨"5", some 5, "Chapter 5", "https://manhwa-tower.ir/r?Chapter=5,t"⟩⟩ :
        ReaderResult).pages ≠ [] := by
  refine ⟨by decide, ?_⟩
  exact explicit_method_pages_nonempty envExplicit "demo" "5" _ (by decide) rfl

/-! ## C9 -/

/-- C9: when no chapter link is matched (or explicit extraction yields no
pages) and the manga has no `internalId`, resolution fails with the 422
resolution error — a well-defined response, with no fallback pages
constructed. -/
theorem resolution_error_without_internalId (env : ResolveEnv)
    (rawSlug rawChapter : String) (hs : rawSlug ≠ "") (hc : rawChapter ≠ "")
    (hmatch :
      match findChapter (env.detail ((sanitizeSlug rawSlug).getD rawSlug)).chapters
          (normalizeChapterToken rawChapter) with
      | none => True
      | some ch => env.readerPages ch.link = [])
    (hid : (env.detail ((sanitizeSlug rawSlug).getD rawSlug)).internalId = none) :
    handleReaderQuery env rawSlug rawChapter =
      ReaderResponse.unprocessable resolutionErrorMsg := by
  rw [handleReaderQuery]
  rw [if_neg (by push_neg; exact ⟨hs, hc⟩)]
  set manga := env.detail ((sanitizeSlug rawSlug).getD rawSlug) with hmanga
  set chapterParam := normalizeChapterToken rawChapter with hcp
  have hfb : ∀ matched, fallbackResolve env manga ((sanitizeSlug rawSlug).getD rawSlug)
      chapterParam matched = ReaderResponse.unprocessable resolutionErrorMsg := by
    intro matched
    rw [fallbackResolve, hid]
  cases hfind : findChapter manga.chapters chapterParam with
  | none =>
    simp only [hfind]
    exact hfb _
  | some c =>
    simp only [hfind]
    rw [hfind] at hmatch
    by_cases hlink : c.link = ""
    · rw [if_pos hlink]
      exact hfb _
    · rw [if_neg hlink]
      have : (env.readerPages c.link).isEmpty = true := by
        simpa [List.isEmpty_iff] using hmatch
      rw [this]
      simp only [if_true]
      exact hfb _

/-- Witness for C9: in `envNoInternal` (empty chapter list, no internal
id) the resolution of chapter `"9"` is the 422 resolution error. -/
theorem resolution_error_without_internalId_witness :
    handleReaderQuery envNoInternal "demo" "9" =
      ReaderResponse.unprocessable resolutionErrorMsg :=
  resolution_error_without_internalId envNoInternal "demo" "9"
    (by decide) (by decide) (by trivial) rfl

/-! ## Helper lemmas: the chapter sort comparator -/

theorem strictBefore_iff (a b : Chapter) :
    strictBefore a b = true ↔
      numKey b < numKey a ∨
        (numKey a = numKey b ∧ a.chapterId ≠ "" ∧ b.chapterId ≠ "" ∧
          b.chapterId < a.chapterId) := by
  rw [strictBefore]
  by_cases h : numKey a = numKey b
  · rw [if_neg (not_not_intro h)]
    by_cases hids : a.chapterId ≠ "" ∧ b.chapterId ≠ ""
    · rw [if_pos hids]
      simp only [decide_eq_true_eq]
      constructor
      · intro hlt
        exact Or.inr ⟨h, hids.1, hids.2, hlt⟩
      · rintro (hlt | ⟨_, _, _, hlt⟩)
        · rw [h] at hlt
          exact absurd hlt (lt_irrefl _)
        · exact hlt
    · rw [if_neg hids]
      simp only [Bool.false_eq_true, false_iff]
      rintro (hlt | ⟨_, hia, hib, _⟩)
      · rw [h] at hlt
        exact lt_irrefl _ hlt
      · exact hids ⟨hia, hib⟩
  · rw [if_pos h]
    simp only [decide_eq_true_eq]
    constructor
    · exact Or.inl
    · rintro (hlt | ⟨he, _⟩)
      · exact hlt
      · exact absurd he h

theorem strictBefore_asymm (a b : Chapter) (h : strictBefore a b = true) :
    strictBefore b a = false := by
  rw [strictBefore_iff] at h
  rw [← Bool.not_eq_true, strictBefore_iff]
  rintro (h2 | ⟨he2, _, _, hlt2⟩) <;>
    rcases h with h1 | ⟨he, _, _, hlt⟩
  · exact absurd h2 (lt_asymm h1)
  · exact absurd h2 (he ▸ lt_irrefl _)
  · exact absurd h1 (he2 ▸ lt_irrefl _)
  · exact absurd hlt2 (lt_asymm hlt)

theorem strictBefore_trans (a b c : Chapter) (hab : strictBefore a b = true)
    (hbc : strictBefore b c = true) : strictBefore a c = true := by
  rw [strictBefore_iff] at hab hbc ⊢
  rcases hab with h1 | ⟨he1, ha1, hb1, hlt1⟩ <;>
    rcases hbc with h2 | ⟨he2, hb2, hc2, hlt2⟩
  · exact Or.inl (lt_trans h2 h1)
  · exact Or.inl (he2 ▸ h1)
  · exact Or.inl (he1 ▸ h2)
  · exact Or.inr ⟨he1.trans he2, ha1, hc2, lt_trans hlt2 hlt1⟩

theorem not_strictBefore_chapterLE (a b : Chapter) (ha : a.chapterId ≠ "")
    (hb : b.chapterId ≠ "") (h : strictBefore b a = false) : chapterLE a b := by
  rw [← Bool.not_eq_true, strictBefore_iff] at h
  push_neg at h
  obtain ⟨hnum, hids⟩ := h
  rw [chapterLE]
  by_cases he : numKey a = numKey b
  · exact Or.inr ⟨he, hids he.symm hb ha⟩
  · exact Or.inl (lt_of_le_of_ne hnum (fun heq => he heq.symm))

/-! ## Helper lemmas: the insertion sort -/

theorem mem_insertSorted (x : Chapter) :
    ∀ l z, z ∈ insertSorted x l ↔ z = x ∨ z ∈ l := by
  intro l
  induction l with
  | nil => intro z; simp [insertSorted]
  | cons y ys ih =>
    intro z
    rw [insertSorted]
    by_cases hxy : strictBefore x y = true
    · simp only [if_pos hxy, List.mem_cons]
    · simp only [if_neg hxy, List.mem_cons, ih]
      tauto

theorem pairwise_insertSorted (x : Chapter) :
    ∀ l, l.Pairwise (fun a b => strictBefore b a = false) →
      (insertSorted x l).Pairwise (fun a b => strictBefore b a = false) := by
  intro l
  induction l with
  | nil => intro _; simp [insertSorted]
  | cons y ys ih =>
    intro hp
    rw [List.pairwise_cons] at hp
    obtain ⟨hy, hys⟩ := hp
    rw [insertSorted]
    by_cases hxy : strictBefore x y = true
    · rw [if_pos hxy]
      refine List.Pairwise.cons ?_ (List.Pairwise.cons hy hys)
      intro z hz
      rcases List.mem_cons.mp hz with rfl | hz
      · exact strictBefore_asymm x z hxy
      · cases hzx : strictBefore z x with
        | false => rfl
        | true =>
          have : strictBefore z y = true := strictBefore_trans z x y hzx hxy
          rw [hy z hz] at this
          cases this
    · rw [if_neg hxy]
      refine List.Pairwise.cons ?_ (ih hys)
      intro z hz
      rcases (mem_insertSorted x ys z).mp hz with rfl | hz
      · exact Bool.eq_false_iff.mpr hxy
      · exact hy z hz

theorem perm_insertSorted (x : Chapter) :
    ∀ l, (insertSorted x l).Perm (x :: l) := by
  intro l
  induction l with
  | nil => simp [insertSorted]
  | cons y ys ih =>
    rw [insertSorted]
    by_cases hxy : strictBefore x y = true
    · rw [if_pos hxy]
    · rw [if_neg hxy]
      exact (ih.cons y).trans (List.Perm.swap x y ys)

theorem sortChapters_aux_perm :
    ∀ (cs acc : List Chapter),
      (cs.foldl (fun acc c => insertSorted c acc) acc).Perm (acc ++ cs) := by
  intro cs
  induction cs with
  | nil => intro acc; simp
  | cons c cs2 ih =>
    intro acc
    rw [List.foldl_cons]
    refine (ih (insertSorted c acc)).trans ?_
    refine ((perm_insertSorted c acc).append_right cs2).trans ?_
    exact (List.perm_middle).symm

theorem sortChapters_aux_pairwise :
    ∀ (cs acc : List Chapter),
      acc.Pairwise (fun a b => strictBefore b a = false) →
      (cs.foldl (fun acc c => insertSorted c acc) acc).Pairwise
        (fun a b => strictBefore b a = false) := by
  intro cs
  induction cs with
  | nil => intro acc h; simpa using h
  | cons c cs2 ih =>
    intro acc h
    rw [List.foldl_cons]
    exact ih (insertSorted c acc) (pairwise_insertSorted c acc h)

/-! ## Helper lemmas: object-assignment dedup -/

theorem upsert_keys_mem :
    ∀ (m : List (String × Chapter)) (k : String) (v : Chapter),
      k ∈ m.map Prod.fst → (upsert m k v).map Prod.fst = m.map Prod.fst := by
  intro m
  induction m with
  | nil => intro k v hk; simp at hk
  | cons hd tl ih =>
    intro k v hk
    obtain ⟨k1, v1⟩ := hd
    simp only [List.map_cons, List.mem_cons] at hk
    rw [upsert]
    by_cases h1 : k1 = k
    · rw [if_pos h1]
      simp [h1]
    · rw [if_neg h1]
      have hk2 : k ∈ tl.map Prod.fst := by
        rcases hk with h | h
        · exact absurd h.symm h1
        · exact h
      simp only [List.map_cons, ih k v hk2]

theorem upsert_keys_not_mem :
    ∀ (m : List (String × Chapter)) (k : String) (v : Chapter),
      k ∉ m.map Prod.fst →
      (upsert m k v).map Prod.fst = m.map Prod.fst ++ [k] := by
  intro m
  induction m with
  | nil => intro k v _; simp [upsert]
  | cons hd tl ih =>
    intro k v hk
    obtain ⟨k1, v1⟩ := hd
    simp only [List.map_cons, List.mem_cons, not_or] at hk
    rw [upsert]
    rw [if_neg (fun h => hk.1 h.symm)]
    simp only [List.map_cons, ih k v hk.2, List.cons_append]

theorem mem_upsert :
    ∀ (m : List (String × Chapter)) (k : String) (v : Chapter),
      (m.map Prod.fst).Nodup →
      ∀ kv, kv ∈ upsert m k v ↔ kv = (k, v) ∨ (kv ∈ m ∧ kv.1 ≠ k) := by
  intro m
  induction m with
  | nil => intro k v _ kv; simp [upsert]
  | cons hd tl ih =>
    intro k v hnd kv
    obtain ⟨k1, v1⟩ := hd
    simp only [List.map_cons, List.nodup_cons] at hnd
    obtain ⟨hk1, hndtl⟩ := hnd
    rw [upsert]
    by_cases h1 : k1 = k
    · rw [if_pos h1]
      subst h1
      have htl : ∀ x, x ∈ tl → x.1 ≠ k1 := by
        intro x hx heq
        exact hk1 (heq ▸ List.mem_map_of_mem Prod.fst hx)
      simp only [List.mem_cons]
      constructor
      · rintro (rfl | h)
        · exact Or.inl rfl
        · exact Or.inr ⟨Or.inr h, htl kv h⟩
      · rintro (rfl | ⟨rfl | hm, hne⟩)
        · exact Or.inl rfl
        · exact absurd rfl hne
        · exact Or.inr hm
    · rw [if_neg h1]
      have hfst : ((k1, v1) : String × Chapter).1 ≠ k := h1
      simp only [List.mem_cons, ih k v hndtl kv]
      constructor
      · rintro (rfl | rfl | ⟨hm, hne⟩)
        · exact Or.inr ⟨Or.inl rfl, hfst⟩
        · exact Or.inl rfl
        · exact Or.inr ⟨Or.inr hm, hne⟩
      · rintro (rfl | ⟨rfl | hm, hne⟩)
        · exact Or.inr (Or.inl rfl)
        · exact Or.inl rfl
        · exact Or.inr (Or.inr ⟨hm, hne⟩)

theorem dedupFold_invariant :
    ∀ (cs pre : List Chapter) (m : List (String × Chapter)),
      (m.map Prod.fst).Nodup →
      (∀ kv ∈ m, kv.1 ≠ "" ∧ kv.2.link = kv.1 ∧
        (pre.filter (fun d => d.link == kv.1)).getLast? = some kv.2) →
      (∀ l, l ≠ "" → ((∃ c ∈ pre, c.link = l) ↔ l ∈ m.map Prod.fst)) →
      ((cs.foldl (fun acc c => if c.link = "" then acc else upsert acc c.link c) m).map
          Prod.fst).Nodup ∧
      (∀ kv ∈ cs.foldl (fun acc c => if c.link = "" then acc else upsert acc c.link c) m,
        kv.1 ≠ "" ∧ kv.2.link = kv.1 ∧
        ((pre ++ cs).filter (fun d => d.link == kv.1)).getLast? = some kv.2) ∧
      (∀ l, l ≠ "" →
        ((∃ c ∈ pre ++ cs, c.link = l) ↔
          l ∈ (cs.foldl (fun acc c => if c.link = "" then acc else upsert acc c.link c)
            m).map Prod.fst)) := by
  intro cs
  induction cs with
  | nil =>
    intro pre m h1 h2 h3
    rw [List.foldl_nil, List.append_nil]
    exact ⟨h1, h2, h3⟩
  | cons c cs2 ih =>
    intro pre m h1 h2 h3
    have hassoc : pre ++ c :: cs2 = (pre ++ [c]) ++ cs2 := by simp
    rw [List.foldl_cons, hassoc]
    refine ih (pre ++ [c]) (if c.link = "" then m else upsert m c.link c) ?_ ?_ ?_
    · by_cases hc : c.link = ""
      · rwa [if_pos hc]
      · rw [if_neg hc]
        by_cases hk : c.link ∈ m.map Prod.fst
        · rwa [upsert_keys_mem m c.link c hk]
        · rw [upsert_keys_not_mem m c.link c hk]
          rw [List.nodup_append]
          refine ⟨h1, List.nodup_singleton _, ?_⟩
          intro x hx hx2
          rcases List.mem_singleton.mp hx2 with rfl
          exact hk hx
    · intro kv hkv
      by_cases hc : c.link = ""
      · rw [if_pos hc] at hkv
        obtain ⟨hne, hlink, hlast⟩ := h2 kv hkv
        refine ⟨hne, hlink, ?_⟩
        rw [List.filter_append]
        have hnil : List.filter (fun d => d.link == kv.1) [c] = [] := by
          have : (c.link == kv.1) = false := by
            rw [hc]
            exact beq_eq_false_iff_ne.mpr (fun h => hne h.symm)
          simp [List.filter_cons, this]
        rw [hnil, List.append_nil]
        exact hlast
      · rw [if_neg hc] at hkv
        rcases (mem_upsert m c.link c h1 kv).mp hkv with rfl | ⟨hkvm, hkne⟩
        · refine ⟨hc, rfl, ?_⟩
          rw [List.filter_append]
          have hone : List.filter (fun d => d.link == (c.link, c).1) [c] = [c] := by
            simp [List.filter_cons]
          rw [hone]
          exact List.getLast?_concat _
        · obtain ⟨hne, hlink, hlast⟩ := h2 kv hkvm
          refine ⟨hne, hlink, ?_⟩
          rw [List.filter_append]
          have hnil : List.filter (fun d => d.link == kv.1) [c] = [] := by
            have : (c.link == kv.1) = false :=
              beq_eq_false_iff_ne.mpr (fun h => hkne h.symm)
            simp [List.filter_cons, this]
          rw [hnil, List.append_nil]
          exact hlast
    · intro l hl
      have hsplit : (∃ x ∈ pre ++ [c], x.link = l) ↔
          (∃ x ∈ pre, x.link = l) ∨ c.link = l := by
        constructor
        · rintro ⟨x, hx, hxl⟩
          rcases List.mem_append.mp hx with h | h
          · exact Or.inl ⟨x, h, hxl⟩
          · rcases List.mem_singleton.mp h with rfl
            exact Or.inr hxl
        · rintro (⟨x, hx, hxl⟩ | hcl)
          · exact ⟨x, List.mem_append_left _ hx, hxl⟩
          · exact ⟨c, List.mem_append_right _ (List.mem_singleton_self c), hcl⟩
      rw [hsplit]
      by_cases hc : c.link = ""
      · rw [if_pos hc, ← h3 l hl]
        constructor
        · rintro (h | h)
          · exact h
          · rw [hc] at h
            exact absurd h.symm hl
        · exact Or.inl
      · rw [if_neg hc]
        by_cases hk : c.link ∈ m.map Prod.fst
        · rw [upsert_keys_mem m c.link c hk, ← h3 l hl]
          constructor
          · rintro (h | h)
            · exact h
            · rw [h3 l hl]
              exact h ▸ hk
          · exact Or.inl
        · rw [upsert_keys_not_mem m c.link c hk, List.mem_append, List.mem_singleton,
            ← h3 l hl]
          constructor
          · rintro (h | h)
            · exact Or.inl h
            · exact Or.inr h.symm
          · rintro (h | h)
            · exact Or.inl h
            · exact Or.inr h.symm

/-! ## C5 -/

/-- C5: the chapter list produced by `extractMangaDetail` is deduplicated
by link with last-seen wins per unique URL (every retained chapter is the
last input occurrence of its non-empty link, and exactly the non-empty
links survive) and sorted descending by `chapterNum` with null treated as
negative infinity, ties broken by descending lexicographic `chapterId`. -/
theorem processChapters_dedup_sort (cs : List Chapter)
    (hid : ∀ c ∈ cs, c.chapterId ≠ "") :
    (processChapters cs).Pairwise chapterLE ∧
    ((processChapters cs).map Chapter.link).Nodup ∧
    (∀ c ∈ processChapters cs, c.link ≠ "" ∧
      (cs.filter (fun d => d.link == c.link)).getLast? = some c) ∧
    (∀ l, l ≠ "" →
      ((∃ c ∈ processChapters cs, c.link = l) ↔ ∃ c ∈ cs, c.link = l)) := by
  obtain ⟨hnd, hkv, hkeys⟩ := dedupFold_invariant cs [] [] (by simp) (by simp) (by simp)
  have hdedup : dedupByLink cs =
      (cs.foldl (fun acc c => if c.link = "" then acc else upsert acc c.link c) []).map
        Prod.snd := rfl
  have hmemd : ∀ x, x ∈ dedupByLink cs ↔
      ∃ kv ∈ cs.foldl (fun acc c => if c.link = "" then acc else upsert acc c.link c) [],
        kv.2 = x := by
    intro x
    rw [hdedup, List.mem_map]
  have hperm : (processChapters cs).Perm (dedupByLink cs) := by
    rw [processChapters, sortChapters]
    simpa using sortChapters_aux_perm (dedupByLink cs) []
  have hmemp : ∀ x, x ∈ processChapters cs ↔ x ∈ dedupByLink cs := fun x => hperm.mem_iff
  have hmemcs : ∀ x ∈ processChapters cs, x ∈ cs := by
    intro x hx
    rcases (hmemd x).mp ((hmemp x).mp hx) with ⟨kv, hkvm, rfl⟩
    have hlast := (hkv kv hkvm).2.2
    rw [List.nil_append] at hlast
    exact List.mem_of_mem_filter (List.mem_of_mem_getLast? hlast)
  refine ⟨?_, ?_, ?_, ?_⟩
  · have hpw : (processChapters cs).Pairwise (fun a b => strictBefore b a = false) := by
      rw [processChapters, sortChapters]
      exact sortChapters_aux_pairwise (dedupByLink cs) [] (by simp)
    exact List.Pairwise.imp_of_mem
      (fun ha hb hr => not_strictBefore_chapterLE _ _
        (hid _ (hmemcs _ ha)) (hid _ (hmemcs _ hb)) hr) hpw
  · have hmaps : (dedupByLink cs).map Chapter.link =
        (cs.foldl (fun acc c => if c.link = "" then acc else upsert acc c.link c) []).map
          Prod.fst := by
      rw [hdedup, List.map_map]
      exact List.map_congr_left (fun kv hkvm => (hkv kv hkvm).2.1)
    rw [(hperm.map Chapter.link).nodup_iff, hmaps]
    exact hnd
  · intro c hc
    rcases (hmemd c).mp ((hmemp c).mp hc) with ⟨kv, hkvm, rfl⟩
    obtain ⟨hne, hlink, hlast⟩ := hkv kv hkvm
    rw [List.nil_append] at hlast
    rw [hlink]
    exact ⟨hne, hlast⟩
  · intro l hl
    have hk2 := hkeys l hl
    rw [List.nil_append] at hk2
    constructor
    · rintro ⟨c, hc, hcl⟩
      exact ⟨c, hmemcs c hc, hcl⟩
    · rintro ⟨c, hc, hcl⟩
      have hinkeys := hk2.mp ⟨c, hc, hcl⟩
      rcases List.mem_map.mp hinkeys with ⟨kv, hkvm, hfst⟩
      refine ⟨kv.2, (hmemp kv.2).mpr ((hmemd kv.2).mpr ⟨kv, hkvm, rfl⟩), ?_⟩
      rw [(hkv kv hkvm).2.1, hfst]

/-- Witness for C5: the spec's example (`chapterNum` values `[3, 1, 3,
null]` with distinct non-empty ids) satisfies the hypotheses, and the
theorem yields the documented order and dedup facts. -/
theorem processChapters_dedup_sort_witness :
    (∀ c ∈ csSort, c.chapterId ≠ "") ∧
      (processChapters csSort).Pairwise chapterLE ∧
      ((processChapters csSort).map Chapter.link).Nodup :=
  ⟨by decide,
   (processChapters_dedup_sort csSort (by decide)).1,
   (processChapters_dedup_sort csSort (by decide)).2.1⟩

end Towerapi
